import Mathlib

/-!
# Verification of the batch dictionary fetcher (`batch.py` / `bing.py`)

Shallow embedding of the word-list batch fetcher:

* file contents are `List Char`; a `write` at a file offset is `writeAt`;
* the JSON values the program serializes (`json.dump(obj, f, ensure_ascii=False,
  indent=2)`) are modelled by the inductive `J`.  The program only ever dumps
  Python values built from `dict`, `list`, `str` and `None` (see
  `fetch_bing_dictionary`: every leaf is a string or `None`), so `J` has
  exactly those constructors;
* `dumpVal` is Python's `json.dump` with `ensure_ascii=False, indent=2`
  restricted to those values: 2-space indentation, `", "`/`": "` separators
  replaced by the indent form `',' '\n' indent` and `': '`, strings escaped
  exactly as CPython's encoder does for `ensure_ascii=False` (only `"`, `\`
  and control characters below 0x20 are escaped, the latter via the five
  short forms or `\u00XX` lowercase hex);
* `parseVal` is a strict recursive-descent parser for the JSON fragment the
  program can emit (null / string / array / object, with RFC 8259
  whitespace).  It accepts only well-formed JSON of that fragment (no
  trailing commas, exactly one top-level value), so `parseJson s = some v`
  certifies that `s` is valid JSON.
-/

/-- JSON values serialized by the program.  `fetch_word` returns Python dicts
whose leaves are strings or `None`; strings are kept as `List Char`. -/
inductive J where
  | null : J
  | str (s : List Char) : J
  | arr (elems : List J) : J
  | obj (fields : List (List Char × J)) : J

/-- A newline followed by `lvl` spaces: the newline-plus-indentation that
`json.dump(..., indent=2)` emits before an element at indentation `lvl`. -/
def nlind (lvl : Nat) : List Char := '\n' :: List.replicate lvl ' '

/-- Lowercase hexadecimal digit, as used by CPython's `\u00XX` escapes. -/
def hexDigit (n : Nat) : Char :=
  if n < 10 then Char.ofNat (48 + n) else Char.ofNat (87 + n)

/-- CPython `json` string escaping for one character under
`ensure_ascii=False`: `"` and `\` get a backslash, control characters below
0x20 use the five short escapes or `\u00XX`; everything else is literal. -/
def escChar (c : Char) : List Char :=
  if c = '"' then ['\\', '"']
  else if c = '\\' then ['\\', '\\']
  else if c.toNat < 32 then
    if c = '\x08' then ['\\', 'b']
    else if c = '\t' then ['\\', 't']
    else if c = '\n' then ['\\', 'n']
    else if c = '\x0c' then ['\\', 'f']
    else if c = '\r' then ['\\', 'r']
    else ['\\', 'u', '0', '0', hexDigit (c.toNat / 16), hexDigit (c.toNat % 16)]
  else [c]

/-- Escape a whole string (concatenation of `escChar`). -/
def escString : List Char → List Char
  | [] => []
  | c :: t => escChar c ++ escString t

mutual

/-- Python `json.dump(v, f, ensure_ascii=False, indent=2)` at indentation level
`lvl`: the exact character sequence CPython writes. -/
def dumpVal (lvl : Nat) : J → List Char
  | .null => ['n', 'u', 'l', 'l']
  | .str s => '"' :: (escString s ++ ['"'])
  | .arr [] => ['[', ']']
  | .arr (x :: xs) =>
      '[' :: (nlind (lvl + 2) ++ dumpElems (lvl + 2) x xs ++ nlind lvl ++ [']'])
  | .obj [] => ['{', '}']
  | .obj (f :: fs) =>
      '{' :: (nlind (lvl + 2) ++ dumpFields (lvl + 2) f fs ++ nlind lvl ++ ['}'])
termination_by v => sizeOf v
decreasing_by all_goals (simp_wf; try omega)

/-- Array elements, separated by `','` plus newline-indent. -/
def dumpElems (lvl : Nat) (x : J) (xs : List J) : List Char :=
  match xs with
  | [] => dumpVal lvl x
  | y :: ys => dumpVal lvl x ++ ',' :: (nlind lvl ++ dumpElems lvl y ys)
termination_by 1 + sizeOf x + sizeOf xs
decreasing_by all_goals (simp_wf; try omega)

/-- Object fields `"key": value`, separated by `','` plus newline-indent. -/
def dumpFields (lvl : Nat) (f : List Char × J) (fs : List (List Char × J)) : List Char :=
  match f, fs with
  | (k, v), [] => '"' :: (escString k ++ '"' :: ':' :: ' ' :: dumpVal lvl v)
  | (k, v), g :: gs =>
      ('"' :: (escString k ++ '"' :: ':' :: ' ' :: dumpVal lvl v)) ++
        ',' :: (nlind lvl ++ dumpFields lvl g gs)
termination_by 1 + sizeOf f + sizeOf fs
decreasing_by all_goals (simp_wf; try omega)

end

/-- Top-level serialization of one appended object (`json.dump` starts at
indentation level 0). -/
def dumpTop (obj : J) : List Char := dumpVal 0 obj

/-- JSON insignificant whitespace (RFC 8259; also the set CPython's
`json.loads` skips between tokens). -/
def isWsChar (c : Char) : Bool := c = ' ' || c = '\t' || c = '\n' || c = '\r'

/-- Skip insignificant whitespace. -/
def skipWs (s : List Char) : List Char := s.dropWhile isWsChar

/-- Value of one hexadecimal digit. -/
def hexVal (c : Char) : Option Nat :=
  if '0' ≤ c ∧ c ≤ '9' then some (c.toNat - 48)
  else if 'a' ≤ c ∧ c ≤ 'f' then some (c.toNat - 87)
  else if 'A' ≤ c ∧ c ≤ 'F' then some (c.toNat - 55)
  else none

/-- JSON short escape sequences. -/
def unescChar (c : Char) : Option Char :=
  if c = '"' then some '"'
  else if c = '\\' then some '\\'
  else if c = '/' then some '/'
  else if c = 'b' then some '\x08'
  else if c = 't' then some '\t'
  else if c = 'n' then some '\n'
  else if c = 'f' then some '\x0c'
  else if c = 'r' then some '\r'
  else none

/-- Read one element of a JSON string literal body: the closing `"` yields
`(none, rest)`, a raw or escaped character yields `(some c, rest)`; `none`
on malformed input. -/
def readStrChar (s : List Char) : Option (Option Char × List Char) :=
  match s with
  | [] => none
  | c :: rest =>
    if c = '"' then some (none, rest)
    else if c = '\\' then
      match rest with
      | [] => none
      | e :: rest2 =>
        if e = 'u' then
          match rest2 with
          | h1 :: h2 :: h3 :: h4 :: rest3 =>
            match hexVal h1, hexVal h2, hexVal h3, hexVal h4 with
            | some a, some b, some c', some d =>
              some (some (Char.ofNat (((a * 16 + b) * 16 + c') * 16 + d)), rest3)
            | _, _, _, _ => none
          | _ => none
        else
          match unescChar e with
          | some c' => some (some c', rest2)
          | none => none
    else some (some c, rest)

/-- Parse the body of a JSON string literal (the opening `"` already
consumed); returns the decoded characters and the input after the closing
`"`.  Fuel bounds the number of decoded characters. -/
def parseJStr : Nat → List Char → Option (List Char × List Char)
  | 0, _ => none
  | fuel + 1, s =>
    match readStrChar s with
    | none => none
    | some (none, rest) => some ([], rest)
    | some (some c, rest) =>
      match parseJStr fuel rest with
      | some (cs, r) => some (c :: cs, r)
      | none => none

mutual

/-- Strict recursive-descent parser for one JSON value (of the fragment the
program emits), with explicit fuel; returns the value and the remaining
input. -/
def parseVal : Nat → List Char → Option (J × List Char)
  | 0, _ => none
  | fuel + 1, s =>
    match skipWs s with
    | [] => none
    | c :: rest =>
      if c = 'n' then
        match rest with
        | 'u' :: 'l' :: 'l' :: r => some (.null, r)
        | _ => none
      else if c = '"' then
        match parseJStr fuel rest with
        | some (cs, r) => some (.str cs, r)
        | none => none
      else if c = '[' then
        let r' := skipWs rest
        if r'.head? = some ']' then some (.arr [], r'.tail)
        else
          match parseArrElems fuel r' with
          | some (vs, rr) => some (.arr vs, rr)
          | none => none
      else if c = '{' then
        let r' := skipWs rest
        if r'.head? = some '}' then some (.obj [], r'.tail)
        else
          match parseObjFields fuel r' with
          | some (fs, rr) => some (.obj fs, rr)
          | none => none
      else none

/-- One or more comma-separated array elements followed by `']'`. -/
def parseArrElems : Nat → List Char → Option (List J × List Char)
  | 0, _ => none
  | fuel + 1, s =>
    match parseVal fuel s with
    | some (v, r) =>
      (match skipWs r with
       | ',' :: r2 =>
         match parseArrElems fuel r2 with
         | some (vs, r3) => some (v :: vs, r3)
         | none => none
       | ']' :: r2 => some ([v], r2)
       | _ => none)
    | none => none

/-- One or more comma-separated `"key": value` fields followed by `'}'`. -/
def parseObjFields : Nat → List Char → Option (List (List Char × J) × List Char)
  | 0, _ => none
  | fuel + 1, s =>
    match skipWs s with
    | '"' :: r =>
      (match parseJStr fuel r with
       | some (k, r1) =>
         (match skipWs r1 with
          | ':' :: r2 =>
            (match parseVal fuel r2 with
             | some (v, r3) =>
               (match skipWs r3 with
                | ',' :: r4 =>
                  (match parseObjFields fuel r4 with
                   | some (fs, r5) => some ((k, v) :: fs, r5)
                   | none => none)
                | '}' :: r4 => some ([(k, v)], r4)
                | _ => none)
             | none => none)
          | _ => none)
       | none => none)
    | _ => none

end

/-- Parse a complete JSON document: one value, with nothing but whitespace
after it.  `parseJson s = some v` certifies `s` is valid JSON denoting `v`. -/
def parseJson (s : List Char) : Option J :=
  match parseVal (s.length + 1) s with
  | some (v, rest) => if (skipWs rest).isEmpty then some v else none
  | none => none

/-!
## File model and `append_json_object_to_array` (batch.py lines 46-65)

A file is its contents, a `List Char`.  Writing `w` at offset `p` overwrites
in place and extends the file as POSIX `r+` writes do (offsets past the end
are zero-filled, which the program never triggers).  The sequence of writes
the function performs while holding the lock is one combined `writeAt`,
since the file position advances by the length of each chunk written.
-/

/-- Write `w` at offset `p` of file `f` (overwrite in place, extend at the
end; zero-fill a gap past the end). -/
def writeAt (f : List Char) (p : Nat) (w : List Char) : List Char :=
  f.take p ++ List.replicate (p - f.length) (Char.ofNat 0) ++ w ++ f.drop (p + w.length)

/-- The function `append_json_object_to_array` under the lock, with no I/O failure:
`f.seek(0, 2); filesize = f.tell()`; if `filesize <= 2` (file holds just
`[]`) seek to offset 1 and write the dumped object plus `']'`, else seek to
`filesize - 1` (over the closing bracket) and write `',\n'`, the dumped
object, and `']'`. -/
def append_json_object_to_array (f : List Char) (obj : J) : List Char :=
  if f.length ≤ 2 then
    writeAt f 1 (dumpTop obj ++ [']'])
  else
    writeAt f (f.length - 1) (',' :: '\n' :: (dumpTop obj ++ [']']))

/-- The output file created by `batch_fetch_dictionary_multithread` before
any append: `open(output_json_path, 'w')` truncates whatever was there and
writes exactly `[]` (batch.py lines 73-75). -/
def initializeOutputFile (_prior : List Char) : List Char := ['[', ']']

/-- File contents after initializing to `[]` and appending each object of
`objs` in order.  Each `append_json_object_to_array` call holds the lock for
its whole read-seek-write sequence, so any properly serialized concurrent
execution is exactly this sequential fold over the completion order. -/
def appendedFile (objs : List J) : List Char :=
  objs.foldl append_json_object_to_array ['[', ']']

/-!
### The append with its `try/except` (batch.py lines 50-65)

`append_attempt` is the body of the `try:` block with a failure oracle
`failAt`: `failAt = some k` means the k-th primitive file operation
(0 = `open`, 1 = `seek(0,2)`/`tell`, 2 = the branch's `seek`, then one index
per `write`/`json.dump` call) raises an exception before taking effect; the
`.error` payload is the file contents at that moment.  `failAt = none` is a
failure-free run.  `append_caught` adds the `except Exception` handler,
which logs and returns normally. -/
def append_attempt (f : List Char) (obj : J) (failAt : Option Nat) :
    Except (List Char) (List Char) :=
  if failAt = some 0 then .error f
  else if failAt = some 1 then .error f
  else if f.length ≤ 2 then
    if failAt = some 2 then .error f
    else if failAt = some 3 then .error f
    else
      let f1 := writeAt f 1 (dumpTop obj)
      if failAt = some 4 then .error f1
      else .ok (writeAt f1 (1 + (dumpTop obj).length) [']'])
  else
    if failAt = some 2 then .error f
    else if failAt = some 3 then .error f
    else
      let f1 := writeAt f (f.length - 1) [',', '\n']
      if failAt = some 4 then .error f1
      else
        let f2 := writeAt f1 (f.length + 1) (dumpTop obj)
        if failAt = some 5 then .error f2
        else .ok (writeAt f2 (f.length + 1 + (dumpTop obj).length) [']'])

/-- The function `append_json_object_to_array` with its `except Exception` handler: an
exception from the body is caught (logged) and the function returns
normally, leaving the file as it was at the failure point. -/
def append_caught (f : List Char) (obj : J) (failAt : Option Nat) :
    Except (List Char) (List Char) :=
  match append_attempt f obj failAt with
  | .ok g => .ok g
  | .error g => .ok g

/-!
## `read_words_from_txt` (batch.py lines 3-14)

Lines of the input file are `List Char`.  Each line is `.strip()`ed
(Python's `str.strip()` removes leading and trailing Unicode whitespace) and
kept iff `re.fullmatch(r'[a-zA-Z]+', word)` succeeds, i.e. the stripped line
is nonempty and consists only of ASCII letters.
-/

/-- Python `str.isspace` / `str.strip()` whitespace: the Unicode whitespace
code points CPython strips. -/
def isPyWs (c : Char) : Bool :=
  let n := c.toNat
  (9 ≤ n && n ≤ 13) || n = 32 || (28 ≤ n && n ≤ 31) || n = 133 || n = 160 ||
    n = 0x1680 || (0x2000 ≤ n && n ≤ 0x200A) || n = 0x2028 || n = 0x2029 ||
    n = 0x202F || n = 0x205F || n = 0x3000

/-- Python `line.strip()`: drop leading and trailing whitespace. -/
def pyStrip (s : List Char) : List Char :=
  ((s.dropWhile isPyWs).reverse.dropWhile isPyWs).reverse

/-- One character of the regex class `[a-zA-Z]`. -/
def isAsciiLetterB (c : Char) : Bool :=
  ('a' ≤ c && c ≤ 'z') || ('A' ≤ c && c ≤ 'Z')

/-- Python `re.fullmatch(r'[a-zA-Z]+', w) is not None`: `w` is nonempty and every
character is an ASCII letter. -/
def matchesFullAlpha (w : List Char) : Bool :=
  !w.isEmpty && w.all isAsciiLetterB

/-- The function `read_words_from_txt`: strip each line, keep the lines that fully match
`[a-zA-Z]+`, in input order. -/
def read_words_from_txt (lines : List (List Char)) : List (List Char) :=
  (lines.map pyStrip).filter matchesFullAlpha

/-!
## `fetch_word` (batch.py lines 23-44)

The underlying `fetch_bing_dictionary` is an external collaborator: attempt
number `n` (0-based) either returns a record (`FetchRes.ok`) or raises an
exception with some message (`FetchRes.err`).  `fetch_word` classifies a
raised message as the terminal "definition not found" condition iff
`'definitions' in str(e)` (substring test).  The `while retries <
max_retries` loop is embedded as a countdown on `remaining = max_retries -
retries`, keeping `retries` as the 0-based attempt index; after a transient
failure the code does `retries += 1; time.sleep(initial_delay * 2 **
(retries - 1))`, i.e. it sleeps `initial_delay * 2 ^ old_retries` — also
after the final attempt.  `FWOut` records the returned dict, the number of
calls to the fetcher, and the list of sleep durations in order.
-/

/-- Outcome of one `fetch_bing_dictionary` call. -/
inductive FetchRes where
  | ok (data : J) : FetchRes
  | err (msg : List Char) : FetchRes

/-- Observable behaviour of one `fetch_word` run: the returned single-key
dict, the number of fetcher calls, and the backoff sleeps performed. -/
structure FWOut where
  ret : J
  calls : Nat
  sleeps : List Nat

/-- Does `h` start with the characters of `n`? (a starts-with test on lists). -/
def startsList : List Char → List Char → Bool
  | [], _ => true
  | _ :: _, [] => false
  | a :: as, b :: bs => a = b && startsList as bs

/-- Python's `needle in haystack` substring test. -/
def hasSub (n : List Char) : List Char → Bool
  | [] => startsList n []
  | c :: t => startsList n (c :: t) || hasSub n t

/-- Python `'definitions' in str(e)`: the message classifies as the terminal
"definition not found" condition. -/
def isNotFoundMsg (msg : List Char) : Bool :=
  hasSub "definitions".data msg

/-- The `while retries < max_retries` loop of `fetch_word`, as a countdown on
`remaining = max_retries - retries`; `retries` is the 0-based index of the
next attempt. -/
def fetchWordGo (fetcher : Nat → FetchRes) (word : List Char) (d : Nat) :
    Nat → Nat → FWOut
  | 0, _ => ⟨J.obj [(word, J.null)], 0, []⟩
  | remaining + 1, retries =>
    match fetcher retries with
    | .ok data => ⟨J.obj [(word, data)], 1, []⟩
    | .err msg =>
      if isNotFoundMsg msg then ⟨J.obj [(word, J.null)], 1, []⟩
      else
        let rest := fetchWordGo fetcher word d remaining (retries + 1)
        ⟨rest.ret, rest.calls + 1, d * 2 ^ retries :: rest.sleeps⟩

/-- The call `fetch_word(word, max_retries, initial_delay)` against fetcher
`fetcher`. -/
def fetch_word (fetcher : Nat → FetchRes) (word : List Char)
    (max_retries initial_delay : Nat) : FWOut :=
  fetchWordGo fetcher word initial_delay max_retries 0

/-- The value bound to `word` in `fetch_word`'s result (the fetched record,
or `null` on a not-found classification or retry exhaustion). -/
def fetchValGo (fetcher : Nat → FetchRes) : Nat → Nat → J
  | 0, _ => J.null
  | remaining + 1, retries =>
    match fetcher retries with
    | .ok data => data
    | .err msg =>
      if isNotFoundMsg msg then J.null
      else fetchValGo fetcher remaining (retries + 1)

/-- The per-word `FetchOutcome` value of a `fetch_word` run with
`max_retries` attempts. -/
def fetchWordVal (fetcher : Nat → FetchRes) (max_retries : Nat) : J :=
  fetchValGo fetcher max_retries 0

/-- The message `fetch_bing_dictionary` raises when the 权威英汉双解 section
is missing (bing.py line 214) — the absent-content signal whose text contains
`'definitions'`. -/
def noDefsMsg (w : List Char) : List Char :=
  "No '权威英汉双解' definitions found for '".data ++ w ++ "'.".data

/-!
## `batch_fetch_dictionary_multithread` (batch.py lines 67-87)

The orchestrator filters the input lines through `read_words_from_txt`,
initializes the output file to `[]`, submits `fetch_word(word)` (defaults
`max_retries=5, initial_delay=1`) for every word, and appends each result
under the shared lock as futures complete.  `as_completed` yields the
submitted words in some completion order — an arbitrary permutation `order`
of `read_words_from_txt lines` (that constraint is a hypothesis of the
theorems below) — and each completed result is appended in that order, so
the final file is `appendedFile` of the results in completion order.
`fetchers w` is the external fetcher behaviour for word `w` (its result on
each attempt). -/
def batch_fetch_dictionary_multithread (fetchers : List Char → Nat → FetchRes)
    (order : List (List Char)) : List Char :=
  appendedFile (order.map (fun w => (fetch_word (fetchers w) w 5 1).ret))

/-- Classification used by the retry claims: the attempt raised and the
message is not the "definition not found" condition. -/
def isTransientErr : FetchRes → Bool
  | .ok _ => false
  | .err m => !(isNotFoundMsg m)

/-- The characters the appends after the first one contribute: for each
object, the separator `',' '\n'` followed by its top-level dump. -/
def blobExt (objs : List J) : List Char :=
  (objs.map (fun o => ',' :: '\n' :: dumpTop o)).flatten

/-- The element region of the output file holding `o :: os`. -/
def fileBlob (o : J) (os : List J) : List Char := dumpTop o ++ blobExt os

/-- The letters-only policy as the spec states it: the token is nonempty
and consists entirely of ASCII letters (`a`-`z` or `A`-`Z`). -/
def specLetterOnly (w : List Char) : Prop :=
  w ≠ [] ∧ ∀ c ∈ w, ('a' ≤ c ∧ c ≤ 'z') ∨ ('A' ≤ c ∧ c ≤ 'Z')

instance (w : List Char) : Decidable (specLetterOnly w) := by
  unfold specLetterOnly
  infer_instance

/-!
## Concrete scenario used by the witnesses (spec §8 property 6)
-/

def wClear : List Char := 'c' :: 'l' :: 'e' :: 'a' :: 'r' :: []

def wKing : List Char := 'k' :: 'i' :: 'n' :: 'g' :: []

def wBad : List Char := '1' :: '2' :: '3' :: 'a' :: 'b' :: 'c' :: []

def demoLines : List (List Char) := [wClear, wBad, wKing]

/-- A fetcher behaviour: `king` resolves, every other word raises the
absent-content message. -/
def demoFetchers : List Char → Nat → FetchRes := fun w _ =>
  if w = wKing then FetchRes.ok (J.str ['K']) else FetchRes.err (noDefsMsg w)

def demoOrder : List (List Char) := [wKing, wClear]

/-!
## Helper lemmas: whitespace skipping, dump shape, string-escape round trip
-/

theorem skipWs_cons_not_ws (c : Char) (l : List Char) (h : isWsChar c = false) :
    skipWs (c :: l) = c :: l := by
  simp [skipWs, List.dropWhile_cons, h]

theorem skipWs_append_ws (a l : List Char) (h : ∀ c ∈ a, isWsChar c = true) :
    skipWs (a ++ l) = skipWs l := by
  induction a with
  | nil => rfl
  | cons c t ih =>
    have hc : isWsChar c = true := h c (List.mem_cons_self c t)
    have ht : ∀ x ∈ t, isWsChar x = true := fun x hx => h x (List.mem_cons_of_mem _ hx)
    simpa [skipWs, List.dropWhile_cons, hc] using ih ht

theorem mem_nlind_ws (k : Nat) : ∀ c ∈ nlind k, isWsChar c = true := by
  intro c hc
  rcases List.mem_cons.mp hc with h | h
  · subst h; decide
  · rw [List.eq_of_mem_replicate h]; decide

theorem dumpVal_head (lvl : Nat) (v : J) :
    ∃ c t, dumpVal lvl v = c :: t ∧ isWsChar c = false ∧ c ≠ ']' ∧ c ≠ '}' := by
  cases v with
  | null =>
    exact ⟨'n', ['u', 'l', 'l'], by simp [dumpVal], by decide, by decide, by decide⟩
  | str s =>
    exact ⟨'"', escString s ++ ['"'], by simp [dumpVal], by decide, by decide, by decide⟩
  | arr l =>
    cases l with
    | nil => exact ⟨'[', [']'], by simp [dumpVal], by decide, by decide, by decide⟩
    | cons x xs =>
      exact ⟨'[', nlind (lvl + 2) ++ (dumpElems (lvl + 2) x xs ++ (nlind lvl ++ [']'])),
        by simp [dumpVal], by decide, by decide, by decide⟩
  | obj l =>
    cases l with
    | nil => exact ⟨'{', ['}'], by simp [dumpVal], by decide, by decide, by decide⟩
    | cons f fs =>
      exact ⟨'{', nlind (lvl + 2) ++ (dumpFields (lvl + 2) f fs ++ (nlind lvl ++ ['}'])),
        by simp [dumpVal], by decide, by decide, by decide⟩

theorem dumpVal_length_pos (lvl : Nat) (v : J) : 1 ≤ (dumpVal lvl v).length := by
  obtain ⟨c, t, h, -, -, -⟩ := dumpVal_head lvl v
  simp [h]

theorem hexVal_hexDigit : ∀ m : Nat, m < 16 → hexVal (hexDigit m) = some m := by decide

theorem escChar_length_pos (c : Char) : 1 ≤ (escChar c).length := by
  unfold escChar
  split_ifs <;> simp

theorem escString_length_ge (s : List Char) : s.length ≤ (escString s).length := by
  induction s with
  | nil => simp [escString]
  | cons c t ih =>
    have := escChar_length_pos c
    simp only [escString, List.length_append, List.length_cons]
    omega

theorem readStrChar_escChar (c : Char) (X : List Char) :
    readStrChar (escChar c ++ X) = some (some c, X) := by
  by_cases h1 : c = '"'
  · subst h1; rfl
  by_cases h2 : c = '\\'
  · subst h2; rfl
  by_cases h3 : c.toNat < 32
  · by_cases hb : c = '\x08'
    · subst hb; rfl
    by_cases ht : c = '\t'
    · subst ht; rfl
    by_cases hn : c = '\n'
    · subst hn; rfl
    by_cases hf : c = '\x0c'
    · subst hf; rfl
    by_cases hr : c = '\r'
    · subst hr; rfl
    · have hd1 : hexVal (hexDigit (c.toNat / 16)) = some (c.toNat / 16) :=
        hexVal_hexDigit _ (by omega)
      have hd2 : hexVal (hexDigit (c.toNat % 16)) = some (c.toNat % 16) :=
        hexVal_hexDigit _ (by omega)
      have hesc : escChar c =
          ['\\', 'u', '0', '0', hexDigit (c.toNat / 16), hexDigit (c.toNat % 16)] := by
        simp [escChar, h1, h2, h3, hb, ht, hn, hf, hr]
      rw [hesc]
      have hval : (((0 * 16 + 0) * 16 + c.toNat / 16) * 16 + c.toNat % 16) = c.toNat := by
        omega
      have h0 : hexVal '0' = some 0 := rfl
      simp only [readStrChar, h0, hd1, hd2, List.cons_append]
      have hval2 : c.toNat / 16 * 16 + c.toNat % 16 = c.toNat := by omega
      simp [hval2, Char.ofNat_toNat]
  · have hesc : escChar c = [c] := by simp [escChar, h1, h2, h3]
    rw [hesc]
    simp [readStrChar, h1, h2]

theorem parseJStr_escString : ∀ (s : List Char) (fuel : Nat) (rest : List Char),
    s.length + 1 ≤ fuel →
    parseJStr fuel (escString s ++ '"' :: rest) = some (s, rest) := by
  intro s
  induction s with
  | nil =>
    intro fuel rest h
    match fuel, h with
    | g + 1, _ => simp [escString, parseJStr, readStrChar]
  | cons c t ih =>
    intro fuel rest h
    match fuel, h with
    | g + 1, h =>
      have hshape : escString (c :: t) ++ '"' :: rest =
          escChar c ++ (escString t ++ '"' :: rest) := by
        simp [escString]
      have hrec : parseJStr g (escString t ++ '"' :: rest) = some (t, rest) :=
        ih g rest (by simp at h; omega)
      rw [hshape, parseJStr, readStrChar_escChar]
      simp [hrec]

theorem dumpElems_head (lvl : Nat) (x : J) (xs : List J) :
    ∃ c t, dumpElems lvl x xs = c :: t ∧ isWsChar c = false ∧ c ≠ ']' ∧ c ≠ '}' := by
  obtain ⟨c, t, hd, hw, h1, h2⟩ := dumpVal_head lvl x
  cases xs with
  | nil => exact ⟨c, t, by simp [dumpElems, hd], hw, h1, h2⟩
  | cons y ys =>
    exact ⟨c, t ++ ',' :: (nlind lvl ++ dumpElems lvl y ys), by simp [dumpElems, hd], hw, h1, h2⟩

theorem dumpFields_head (lvl : Nat) (f : List Char × J) (fs : List (List Char × J)) :
    ∃ t, dumpFields lvl f fs = '"' :: t := by
  obtain ⟨k, v⟩ := f
  cases fs with
  | nil => exact ⟨escString k ++ '"' :: ':' :: ' ' :: dumpVal lvl v, by simp [dumpFields]⟩
  | cons g gs =>
    exact ⟨escString k ++ '"' :: ':' :: ' ' :: (dumpVal lvl v ++
      ',' :: (nlind lvl ++ dumpFields lvl g gs)), by simp [dumpFields]⟩

theorem parseVal_ws (fuel : Nat) (a l : List Char) (h : ∀ c ∈ a, isWsChar c = true) :
    parseVal fuel (a ++ l) = parseVal fuel l := by
  cases fuel with
  | zero => rfl
  | succ g => simp only [parseVal, skipWs_append_ws a l h]

theorem parseArrElems_ws (fuel : Nat) (a l : List Char) (h : ∀ c ∈ a, isWsChar c = true) :
    parseArrElems fuel (a ++ l) = parseArrElems fuel l := by
  cases fuel with
  | zero => rfl
  | succ g => simp only [parseArrElems, parseVal_ws g a l h]

theorem parseObjFields_ws (fuel : Nat) (a l : List Char) (h : ∀ c ∈ a, isWsChar c = true) :
    parseObjFields fuel (a ++ l) = parseObjFields fuel l := by
  cases fuel with
  | zero => rfl
  | succ g => simp only [parseObjFields, skipWs_append_ws a l h]

/-- Master round trip: the strict parser recovers exactly the value that
`json.dump` serialized, leaving the rest of the input untouched, provided
the fuel covers the dumped text. -/
theorem parse_dump_master : ∀ fuel : Nat,
    (∀ (v : J) (lvl : Nat) (rest : List Char),
        (dumpVal lvl v).length ≤ fuel →
        parseVal fuel (dumpVal lvl v ++ rest) = some (v, rest)) ∧
    (∀ (lvl : Nat) (x : J) (xs : List J) (ws rest : List Char),
        (∀ c ∈ ws, isWsChar c = true) →
        (dumpElems lvl x xs).length + 1 ≤ fuel →
        parseArrElems fuel (dumpElems lvl x xs ++ ws ++ ']' :: rest) = some (x :: xs, rest)) ∧
    (∀ (lvl : Nat) (f : List Char × J) (fs : List (List Char × J)) (ws rest : List Char),
        (∀ c ∈ ws, isWsChar c = true) →
        (dumpFields lvl f fs).length + 1 ≤ fuel →
        parseObjFields fuel (dumpFields lvl f fs ++ ws ++ '}' :: rest) = some (f :: fs, rest)) := by
  intro fuel
  induction fuel with
  | zero =>
    refine ⟨?_, ?_, ?_⟩
    · intro v lvl rest hlen
      have := dumpVal_length_pos lvl v
      omega
    · intro lvl x xs ws rest hws hlen; omega
    · intro lvl f fs ws rest hws hlen; omega
  | succ g ih =>
    obtain ⟨ihA, ihB, ihC⟩ := ih
    refine ⟨?_, ?_, ?_⟩
    · -- one value
      intro v lvl rest hlen
      cases v with
      | null =>
        simp only [dumpVal, List.cons_append, List.nil_append]
        simp only [parseVal]
        rw [skipWs_cons_not_ws _ _ (by decide)]
        simp
      | str s =>
        have hb : s.length + 1 ≤ g := by
          have h1 := escString_length_ge s
          simp [dumpVal] at hlen
          omega
        simp only [dumpVal, List.cons_append, List.append_assoc, List.nil_append]
        simp only [parseVal]
        rw [skipWs_cons_not_ws _ _ (by decide)]
        simp [parseJStr_escString s g rest hb]
      | arr l =>
        cases l with
        | nil =>
          simp only [dumpVal, List.cons_append, List.nil_append]
          simp only [parseVal]
          rw [skipWs_cons_not_ws _ _ (by decide)]
          simp [skipWs, isWsChar]
        | cons x xs =>
          obtain ⟨c, t, hd, hw, hne1, hne2⟩ := dumpElems_head (lvl + 2) x xs
          have hb : (dumpElems (lvl + 2) x xs).length + 1 ≤ g := by
            simp [dumpVal, nlind] at hlen
            omega
          have hskip : skipWs (dumpElems (lvl + 2) x xs ++ (nlind lvl ++ (']' :: rest))) =
              dumpElems (lvl + 2) x xs ++ (nlind lvl ++ (']' :: rest)) := by
            rw [hd]
            simp only [List.cons_append]
            exact skipWs_cons_not_ws _ _ hw
          have hhead : (dumpElems (lvl + 2) x xs ++ (nlind lvl ++ (']' :: rest))).head? =
              some c := by
            rw [hd]; simp
          have harr : parseArrElems g
              (dumpElems (lvl + 2) x xs ++ (nlind lvl ++ (']' :: rest))) =
              some (x :: xs, rest) := by
            have := ihB (lvl + 2) x xs (nlind lvl) rest (mem_nlind_ws lvl) hb
            simpa [List.append_assoc] using this
          have hs2 : skipWs (nlind (lvl + 2) ++
              (dumpElems (lvl + 2) x xs ++ (nlind lvl ++ (']' :: rest)))) =
              dumpElems (lvl + 2) x xs ++ (nlind lvl ++ (']' :: rest)) := by
            rw [skipWs_append_ws _ _ (mem_nlind_ws _)]
            exact hskip
          simp only [dumpVal, List.cons_append, List.append_assoc, List.nil_append]
          simp only [parseVal]
          rw [skipWs_cons_not_ws _ _ (by decide)]
          simp [hs2, hhead, hne1, harr]
      | obj l =>
        cases l with
        | nil =>
          simp only [dumpVal, List.cons_append, List.nil_append]
          simp only [parseVal]
          rw [skipWs_cons_not_ws _ _ (by decide)]
          simp [skipWs, isWsChar]
        | cons f fs =>
          obtain ⟨t, hd⟩ := dumpFields_head (lvl + 2) f fs
          have hb : (dumpFields (lvl + 2) f fs).length + 1 ≤ g := by
            simp [dumpVal, nlind] at hlen
            omega
          have hskip : skipWs (dumpFields (lvl + 2) f fs ++ (nlind lvl ++ ('}' :: rest))) =
              dumpFields (lvl + 2) f fs ++ (nlind lvl ++ ('}' :: rest)) := by
            rw [hd]
            simp only [List.cons_append]
            exact skipWs_cons_not_ws _ _ (by decide)
          have hhead : (dumpFields (lvl + 2) f fs ++ (nlind lvl ++ ('}' :: rest))).head? =
              some '"' := by
            rw [hd]; simp
          have hobj : parseObjFields g
              (dumpFields (lvl + 2) f fs ++ (nlind lvl ++ ('}' :: rest))) =
              some (f :: fs, rest) := by
            have := ihC (lvl + 2) f fs (nlind lvl) rest (mem_nlind_ws lvl) hb
            simpa [List.append_assoc] using this
          have hs2 : skipWs (nlind (lvl + 2) ++
              (dumpFields (lvl + 2) f fs ++ (nlind lvl ++ ('}' :: rest)))) =
              dumpFields (lvl + 2) f fs ++ (nlind lvl ++ ('}' :: rest)) := by
            rw [skipWs_append_ws _ _ (mem_nlind_ws _)]
            exact hskip
          simp only [dumpVal, List.cons_append, List.append_assoc, List.nil_append]
          simp only [parseVal]
          rw [skipWs_cons_not_ws _ _ (by decide)]
          simp [hs2, hhead, hobj]
    · -- array elements
      intro lvl x xs ws rest hws hlen
      cases xs with
      | nil =>
        have hb : (dumpVal lvl x).length ≤ g := by
          simp [dumpElems] at hlen
          omega
        have hpv := ihA x lvl (ws ++ ']' :: rest) hb
        have hsw : skipWs (ws ++ ']' :: rest) = ']' :: rest := by
          rw [skipWs_append_ws ws _ hws]
          exact skipWs_cons_not_ws _ _ (by decide)
        simp only [dumpElems, List.append_assoc]
        simp [parseArrElems, hpv, hsw]
      | cons y ys =>
        have hx := dumpVal_length_pos lvl x
        have hb1 : (dumpVal lvl x).length ≤ g := by
          simp [dumpElems, nlind] at hlen
          omega
        have hb2 : (dumpElems lvl y ys).length + 1 ≤ g := by
          simp [dumpElems, nlind] at hlen
          omega
        have hpv := ihA x lvl
          (',' :: (nlind lvl ++ (dumpElems lvl y ys ++ (ws ++ ']' :: rest)))) hb1
        have harr : parseArrElems g
            (nlind lvl ++ (dumpElems lvl y ys ++ (ws ++ ']' :: rest))) =
            some (y :: ys, rest) := by
          rw [parseArrElems_ws g (nlind lvl) _ (mem_nlind_ws _)]
          have := ihB lvl y ys ws rest hws hb2
          simpa [List.append_assoc] using this
        simp only [dumpElems, List.cons_append, List.append_assoc]
        simp [parseArrElems, hpv, harr, skipWs, isWsChar]
    · -- object fields
      intro lvl f fs ws rest hws hlen
      obtain ⟨k, v⟩ := f
      cases fs with
      | nil =>
        have hkey : k.length + 1 ≤ g := by
          have h1 := escString_length_ge k
          simp [dumpFields] at hlen
          omega
        have hval : (dumpVal lvl v).length ≤ g := by
          simp [dumpFields] at hlen
          omega
        have hstr := parseJStr_escString k g
          (':' :: ' ' :: (dumpVal lvl v ++ (ws ++ '}' :: rest))) hkey
        have hpv : parseVal g (' ' :: (dumpVal lvl v ++ (ws ++ '}' :: rest))) =
            some (v, ws ++ '}' :: rest) := by
          have h1 : (' ' :: (dumpVal lvl v ++ (ws ++ '}' :: rest))) =
              [' '] ++ (dumpVal lvl v ++ (ws ++ '}' :: rest)) := by simp
          rw [h1, parseVal_ws g [' '] _ (by decide)]
          exact ihA v lvl (ws ++ '}' :: rest) hval
        have hsw : List.dropWhile isWsChar (ws ++ '}' :: rest) = '}' :: rest := by
          have h2 : skipWs (ws ++ '}' :: rest) = '}' :: rest := by
            rw [skipWs_append_ws ws _ hws]
            exact skipWs_cons_not_ws _ _ (by decide)
          simpa [skipWs] using h2
        simp only [dumpFields, List.cons_append, List.append_assoc]
        simp only [parseObjFields]
        rw [skipWs_cons_not_ws _ _ (by decide)]
        simp [hstr, hpv, hsw, skipWs, isWsChar]
      | cons g' gs =>
        have hkey : k.length + 1 ≤ g := by
          have h1 := escString_length_ge k
          simp [dumpFields, nlind] at hlen
          omega
        have hval : (dumpVal lvl v).length ≤ g := by
          simp [dumpFields, nlind] at hlen
          omega
        have hb2 : (dumpFields lvl g' gs).length + 1 ≤ g := by
          have h1 := dumpVal_length_pos lvl v
          simp [dumpFields, nlind] at hlen
          omega
        have hstr := parseJStr_escString k g
          (':' :: ' ' :: (dumpVal lvl v ++
            (',' :: (nlind lvl ++ (dumpFields lvl g' gs ++ (ws ++ '}' :: rest)))))) hkey
        have hpv : parseVal g (' ' :: (dumpVal lvl v ++
            (',' :: (nlind lvl ++ (dumpFields lvl g' gs ++ (ws ++ '}' :: rest)))))) =
            some (v, ',' :: (nlind lvl ++ (dumpFields lvl g' gs ++ (ws ++ '}' :: rest)))) := by
          have h1 : (' ' :: (dumpVal lvl v ++
              (',' :: (nlind lvl ++ (dumpFields lvl g' gs ++ (ws ++ '}' :: rest)))))) =
              [' '] ++ (dumpVal lvl v ++
              (',' :: (nlind lvl ++ (dumpFields lvl g' gs ++ (ws ++ '}' :: rest))))) := by
            simp
          rw [h1, parseVal_ws g [' '] _ (by decide)]
          exact ihA v lvl _ hval
        have hobj : parseObjFields g
            (nlind lvl ++ (dumpFields lvl g' gs ++ (ws ++ '}' :: rest))) =
            some ((g' :: gs), rest) := by
          rw [parseObjFields_ws g (nlind lvl) _ (mem_nlind_ws _)]
          have := ihC lvl g' gs ws rest hws hb2
          simpa [List.append_assoc] using this
        simp only [dumpFields, List.cons_append, List.append_assoc]
        simp only [parseObjFields]
        rw [skipWs_cons_not_ws _ _ (by decide)]
        simp [hstr, hpv, hobj, skipWs, isWsChar]

theorem fileBlob_cons (o p : J) (ps : List J) :
    fileBlob o (p :: ps) = dumpTop o ++ ',' :: '\n' :: fileBlob p ps := by
  simp [fileBlob, blobExt]

/-- A write that starts inside the file and reaches (at least) its end
replaces everything from the offset on. -/
theorem writeAt_append_over (f : List Char) (p : Nat) (w : List Char)
    (hp : p ≤ f.length) (hw : f.length ≤ p + w.length) :
    writeAt f p w = f.take p ++ w := by
  unfold writeAt
  rw [show p - f.length = 0 from by omega]
  rw [List.drop_eq_nil_of_le (by omega)]
  simp

theorem append_base (o : J) :
    append_json_object_to_array ['[', ']'] o = '[' :: (dumpTop o ++ [']']) := by
  unfold append_json_object_to_array
  rw [if_pos (by simp)]
  rw [writeAt_append_over _ _ _ (by simp)
    (by simp only [List.length_cons, List.length_append, List.length_nil]; omega)]
  rfl

theorem append_extend (blob : List Char) (o : J) (h : 1 ≤ blob.length) :
    append_json_object_to_array ('[' :: (blob ++ [']'])) o =
      '[' :: ((blob ++ (',' :: '\n' :: dumpTop o)) ++ [']']) := by
  unfold append_json_object_to_array
  rw [if_neg (by simp only [List.length_cons, List.length_append, List.length_nil]; omega)]
  have hlen : ('[' :: (blob ++ [']'])).length = blob.length + 2 := by simp
  rw [hlen]
  have hidx : blob.length + 2 - 1 = blob.length + 1 := by omega
  rw [hidx]
  rw [writeAt_append_over _ _ _
    (by simp only [List.length_cons, List.length_append, List.length_nil]; omega)
    (by simp only [List.length_cons, List.length_append, List.length_nil]; omega)]
  have htake : ('[' :: (blob ++ [']'])).take (blob.length + 1) = '[' :: blob := by
    simp [List.take_succ_cons, List.take_left]
  rw [htake]
  simp

theorem foldl_append_blob : ∀ (objs : List J) (blob : List Char), 1 ≤ blob.length →
    objs.foldl append_json_object_to_array ('[' :: (blob ++ [']'])) =
      '[' :: ((blob ++ blobExt objs) ++ [']']) := by
  intro objs
  induction objs with
  | nil => intro blob h; simp [blobExt]
  | cons p ps ih =>
    intro blob h
    rw [List.foldl_cons, append_extend blob p h]
    rw [ih (blob ++ (',' :: '\n' :: dumpTop p))
      (by simp only [List.length_append, List.length_cons]; omega)]
    simp [blobExt]

theorem appendedFile_eq (o : J) (os : List J) :
    appendedFile (o :: os) = '[' :: (fileBlob o os ++ [']']) := by
  unfold appendedFile
  rw [List.foldl_cons, append_base]
  rw [foldl_append_blob os (dumpTop o) (dumpVal_length_pos 0 o)]
  simp [fileBlob]

theorem parseArrElems_fileBlob : ∀ (os : List J) (o : J) (fuel : Nat) (rest : List Char),
    (fileBlob o os).length + 1 ≤ fuel →
    parseArrElems fuel (fileBlob o os ++ ']' :: rest) = some (o :: os, rest) := by
  intro os
  induction os with
  | nil =>
    intro o fuel rest h
    match fuel, h with
    | g + 1, h =>
      have hb : (dumpTop o).length ≤ g := by
        simp only [fileBlob, blobExt, List.map_nil, List.flatten_nil,
          List.append_nil, List.length_append] at h
        omega
      have hpv := (parse_dump_master g).1 o 0 (']' :: rest) hb
      simp only [fileBlob, blobExt, List.map_nil, List.flatten_nil, List.append_nil]
      simp [parseArrElems, dumpTop] at hpv ⊢
      simp [hpv, skipWs, isWsChar]
  | cons p ps ih =>
    intro o fuel rest h
    match fuel, h with
    | g + 1, h =>
      have hlen1 := dumpVal_length_pos 0 o
      have hlens : (fileBlob o (p :: ps)).length =
          (dumpTop o).length + 2 + (fileBlob p ps).length := by
        rw [fileBlob_cons]
        simp only [List.length_append, List.length_cons]
        omega
      have hb1 : (dumpTop o).length ≤ g := by omega
      have hb2 : (fileBlob p ps).length + 1 ≤ g := by
        simp only [dumpTop] at hlens
        omega
      have hpv := (parse_dump_master g).1 o 0
        (',' :: '\n' :: (fileBlob p ps ++ ']' :: rest)) hb1
      have hrec : parseArrElems g ('\n' :: (fileBlob p ps ++ ']' :: rest)) =
          some (p :: ps, rest) := by
        have h1 : ('\n' :: (fileBlob p ps ++ ']' :: rest)) =
            ['\n'] ++ (fileBlob p ps ++ ']' :: rest) := by simp
        rw [h1, parseArrElems_ws g ['\n'] _ (by decide)]
        exact ih p g rest hb2
      rw [fileBlob_cons]
      simp only [List.cons_append, List.append_assoc]
      simp [parseArrElems, dumpTop, hpv, hrec, skipWs, isWsChar]

/-- Core invariant: after initializing to `[]` and appending any sequence of
objects, the file parses as exactly the JSON array of those objects. -/
theorem appendedFile_parses (objs : List J) :
    parseJson (appendedFile objs) = some (J.arr objs) := by
  cases objs with
  | nil => rfl
  | cons o os =>
    rw [appendedFile_eq]
    obtain ⟨c, t, hd, hw, hne1, hne2⟩ := dumpVal_head 0 o
    have hdT : dumpTop o = c :: t := hd
    have hblob : ∃ u, fileBlob o os = c :: u := by
      refine ⟨t ++ blobExt os, ?_⟩
      simp [fileBlob, hdT]
    obtain ⟨u, hbl⟩ := hblob
    have hlen : ('[' :: (fileBlob o os ++ [']'])).length = (fileBlob o os).length + 2 := by
      simp
    unfold parseJson
    rw [hlen]
    have hs1 : skipWs ('[' :: (fileBlob o os ++ [']'])) =
        '[' :: (fileBlob o os ++ [']']) := skipWs_cons_not_ws _ _ (by decide)
    have hs2 : skipWs (fileBlob o os ++ [']']) = fileBlob o os ++ [']'] := by
      rw [hbl]
      simp only [List.cons_append]
      exact skipWs_cons_not_ws _ _ hw
    have hhead : (fileBlob o os ++ [']']).head? = some c := by
      rw [hbl]; simp
    have harr : parseArrElems ((fileBlob o os).length + 2)
        (fileBlob o os ++ [']']) = some (o :: os, []) := by
      have h1 := parseArrElems_fileBlob os o ((fileBlob o os).length + 2) [] (by omega)
      simpa using h1
    have hs2' : List.dropWhile isWsChar (fileBlob o os ++ [']']) =
        fileBlob o os ++ [']'] := by simpa [skipWs] using hs2
    simp only [parseVal, hs1]
    simp [hs2', hhead, hne1, harr, skipWs, isWsChar]

/-!
## Helper lemmas for the `try/except` append and the fetch loop
-/

theorem writeAt_at_length (f w : List Char) : writeAt f f.length w = f ++ w := by
  unfold writeAt
  rw [List.take_length, Nat.sub_self]
  rw [List.drop_eq_nil_of_le (by omega)]
  simp

theorem writeAt_chain (f : List Char) (p : Nat) (w1 w2 : List Char)
    (hp : p ≤ f.length) (hw : f.length ≤ p + w1.length) :
    writeAt (writeAt f p w1) (p + w1.length) w2 = f.take p ++ (w1 ++ w2) := by
  rw [writeAt_append_over f p w1 hp hw]
  have hL : (f.take p ++ w1).length = p + w1.length := by
    simp only [List.length_append, List.length_take]
    omega
  rw [← hL, writeAt_at_length]
  simp

/-- A failure-free run of the `try:` body is exactly the lock-protected
append. -/
theorem append_attempt_none (f : List Char) (obj : J) :
    append_attempt f obj none = .ok (append_json_object_to_array f obj) := by
  have hdlen : 1 ≤ (dumpTop obj).length := dumpVal_length_pos 0 obj
  have hnone : ∀ k : Nat, ((none : Option Nat) = some k) = False := fun k => by simp
  by_cases hle : f.length ≤ 2
  · by_cases h0 : f.length = 0
    · have hf : f = [] := List.length_eq_zero.mp h0
      subst hf
      have hw0 : ∀ w : List Char, writeAt [] 1 w = Char.ofNat 0 :: w := by
        intro w
        unfold writeAt
        simp [List.replicate]
      simp only [append_attempt, append_json_object_to_array, hnone, if_false,
        List.length_nil]
      rw [if_pos (by omega), if_pos (by omega)]
      rw [hw0, hw0]
      have hx : 1 + (dumpTop obj).length = (Char.ofNat 0 :: dumpTop obj).length := by
        simp
        omega
      rw [hx, writeAt_at_length]
      simp
    · have h1 : 1 ≤ f.length := by omega
      simp only [append_attempt, append_json_object_to_array, hnone, if_false]
      rw [if_pos hle, if_pos hle]
      rw [writeAt_chain f 1 (dumpTop obj) [']'] h1 (by omega)]
      rw [writeAt_append_over f 1 (dumpTop obj ++ [']']) h1
        (by simp only [List.length_append, List.length_cons, List.length_nil]; omega)]
  · simp only [append_attempt, append_json_object_to_array, hnone, if_false]
    rw [if_neg hle, if_neg hle]
    have hw1 : f.length ≤ (f.length - 1) + ([',', '\n'] : List Char).length := by
      simp only [List.length_cons, List.length_nil]
      omega
    rw [writeAt_append_over f (f.length - 1) [',', '\n'] (by omega) hw1]
    have hL1 : (f.take (f.length - 1) ++ [',', '\n']).length = f.length + 1 := by
      simp only [List.length_append, List.length_take, List.length_cons, List.length_nil]
      omega
    rw [← hL1]
    rw [writeAt_at_length]
    rw [← List.length_append (f.take (f.length - 1) ++ [',', '\n']) (dumpTop obj)]
    rw [writeAt_at_length]
    rw [writeAt_append_over f (f.length - 1) (',' :: '\n' :: (dumpTop obj ++ [']']))
      (by omega)
      (by simp only [List.length_cons, List.length_append, List.length_nil]; omega)]
    simp

theorem fetchWordGo_ret (fetcher : Nat → FetchRes) (word : List Char) (d : Nat) :
    ∀ rem retries, (fetchWordGo fetcher word d rem retries).ret =
      J.obj [(word, fetchValGo fetcher rem retries)] := by
  intro rem
  induction rem with
  | zero => intro r; rfl
  | succ n ih =>
    intro r
    simp only [fetchWordGo, fetchValGo]
    cases hf : fetcher r with
    | ok data => rfl
    | err msg =>
      by_cases hm : isNotFoundMsg msg <;> simp [hm, ih]

theorem fetchValGo_cases (fetcher : Nat → FetchRes) :
    ∀ rem retries, fetchValGo fetcher rem retries = J.null ∨
      ∃ n, fetcher n = .ok (fetchValGo fetcher rem retries) := by
  intro rem
  induction rem with
  | zero => intro r; exact Or.inl rfl
  | succ n ih =>
    intro r
    simp only [fetchValGo]
    cases hf : fetcher r with
    | ok data => exact Or.inr ⟨r, by rw [hf]⟩
    | err msg =>
      by_cases hm : isNotFoundMsg msg
      · simp [hm]
      · simp only [hm, if_false, Bool.false_eq_true]
        exact ih (r + 1)

theorem fetchWordGo_exhaust (fetcher : Nat → FetchRes) (word : List Char) (d : Nat) :
    ∀ rem retries,
      (∀ n, retries ≤ n → n < retries + rem → isTransientErr (fetcher n) = true) →
      fetchWordGo fetcher word d rem retries =
        ⟨J.obj [(word, J.null)], rem,
          (List.range rem).map (fun k => d * 2 ^ (retries + k))⟩ := by
  intro rem
  induction rem with
  | zero => intro r h; rfl
  | succ n ih =>
    intro r h
    have hr := h r (le_refl r) (by omega)
    simp only [fetchWordGo]
    cases hf : fetcher r with
    | ok data => rw [hf] at hr; simp [isTransientErr] at hr
    | err msg =>
      rw [hf] at hr
      have hm : isNotFoundMsg msg = false := by
        simp [isTransientErr] at hr
        exact hr
      have hrec := ih (r + 1) (fun n h1 h2 => h n (by omega) (by omega))
      have hmap : (List.range (n + 1)).map (fun k => d * 2 ^ (r + k)) =
          d * 2 ^ r :: (List.range n).map (fun k => d * 2 ^ (r + 1 + k)) := by
        rw [List.range_succ_eq_map]
        rw [List.map_cons, List.map_map]
        congr 1
        apply List.map_congr_left
        intro a ha
        have hx : r + (a + 1) = r + 1 + a := by omega
        simp [Function.comp, hx]
      simp [hm, hrec, hmap]

theorem startsList_append (n : List Char) :
    ∀ (a b : List Char), startsList n a = true → startsList n (a ++ b) = true := by
  induction n with
  | nil => intro a b h; rfl
  | cons c cs ih =>
    intro a b h
    cases a with
    | nil => simp [startsList] at h
    | cons x xs =>
      simp only [startsList, Bool.and_eq_true] at h
      simp only [List.cons_append, startsList, Bool.and_eq_true]
      exact ⟨h.1, ih xs b h.2⟩

theorem hasSub_append_left (n : List Char) :
    ∀ (a b : List Char), hasSub n a = true → hasSub n (a ++ b) = true := by
  intro a
  induction a with
  | nil =>
    intro b h
    simp only [hasSub] at h
    cases n with
    | nil =>
      simp only [List.nil_append]
      cases b with
      | nil => rfl
      | cons x xs => simp [hasSub, startsList]
    | cons c cs => simp [startsList] at h
  | cons x xs ih =>
    intro b h
    simp only [hasSub, Bool.or_eq_true] at h
    simp only [List.cons_append, hasSub, Bool.or_eq_true]
    rcases h with h | h
    · exact Or.inl (startsList_append n _ b h)
    · exact Or.inr (ih b h)

/-- The absent-content message of bing.py line 214 contains `'definitions'`
for every queried word, so `fetch_word` classifies it as terminal. -/
theorem noDefsMsg_isNotFound (w : List Char) : isNotFoundMsg (noDefsMsg w) = true := by
  unfold isNotFoundMsg noDefsMsg
  rw [List.append_assoc]
  apply hasSub_append_left
  decide

/-- Every run's backoff delays are an initial segment of the doubling
sequence `d * 2^0, d * 2^1, …` (shifted by the starting attempt index). -/
theorem fetchWordGo_sleeps_shape (fetcher : Nat → FetchRes) (word : List Char) (d : Nat) :
    ∀ rem retries, ∃ t,
      (fetchWordGo fetcher word d rem retries).sleeps =
        (List.range t).map (fun k => d * 2 ^ (retries + k)) := by
  intro rem
  induction rem with
  | zero => intro r; exact ⟨0, rfl⟩
  | succ n ih =>
    intro r
    simp only [fetchWordGo]
    cases hf : fetcher r with
    | ok data => exact ⟨0, rfl⟩
    | err msg =>
      by_cases hm : isNotFoundMsg msg
      · simp only [hm, if_true]
        exact ⟨0, rfl⟩
      · simp only [hm, Bool.false_eq_true, if_false]
        obtain ⟨t, ht⟩ := ih (r + 1)
        refine ⟨t + 1, ?_⟩
        simp only [ht]
        rw [List.range_succ_eq_map]
        rw [List.map_cons, List.map_map]
        congr 1
        apply List.map_congr_left
        intro a ha
        have hx : r + (a + 1) = r + 1 + a := by omega
        simp [Function.comp, hx]

/-!
## The claims
-/

/-- C1: starting from a file containing exactly `[]`, after `N`
`append_json_object_to_array` operations performed one at a time (the lock
serializes them, so any execution is the sequential fold `appendedFile`),
the output file parses as a valid JSON array of exactly the `N` appended
elements, each a single-key object; moreover no append leaves the file in a
state that fails to parse as JSON — after every prefix of the appends the
file still parses as the array of the objects appended so far. -/
theorem claim_C1 (objs : List J)
    (hobjs : ∀ o ∈ objs, ∃ key v, o = J.obj [(key, v)]) :
    parseJson (appendedFile objs) = some (J.arr objs) ∧
    (∀ o ∈ objs, ∃ key v, o = J.obj [(key, v)]) ∧
    (∀ k, k ≤ objs.length →
      parseJson (appendedFile (objs.take k)) = some (J.arr (objs.take k))) :=
  ⟨appendedFile_parses objs, hobjs, fun k _ => appendedFile_parses (objs.take k)⟩

theorem claim_C1_witness :
    parseJson (appendedFile [J.obj [(['a'], J.null)], J.obj [(['b'], J.str ['x'])]]) =
      some (J.arr [J.obj [(['a'], J.null)], J.obj [(['b'], J.str ['x'])]]) ∧
    (∀ o ∈ [J.obj [(['a'], J.null)], J.obj [(['b'], J.str ['x'])]],
      ∃ key v, o = J.obj [(key, v)]) ∧
    (∀ k, k ≤ ([J.obj [(['a'], J.null)], J.obj [(['b'], J.str ['x'])]] : List J).length →
      parseJson (appendedFile (([J.obj [(['a'], J.null)],
        J.obj [(['b'], J.str ['x'])]] : List J).take k)) =
        some (J.arr (([J.obj [(['a'], J.null)], J.obj [(['b'], J.str ['x'])]] : List J).take k))) :=
  claim_C1 [J.obj [(['a'], J.null)], J.obj [(['b'], J.str ['x'])]]
    (by
      intro o ho
      simp only [List.mem_cons, List.not_mem_nil, or_false] at ho
      rcases ho with rfl | rfl
      · exact ⟨['a'], J.null, rfl⟩
      · exact ⟨['b'], J.str ['x'], rfl⟩)

/-- C2: for every input word list and every completion order of the worker
pool (a permutation of the filtered words), the orchestrator produces an
output file that parses as a JSON array with exactly one element per
filtered word; each element is a single-key object whose key is that word
and whose value is either a record the fetcher returned or `null` (appends
are modelled failure-free, as the claim assumes). -/
theorem claim_C2 (lines : List (List Char)) (fetchers : List Char → Nat → FetchRes)
    (order : List (List Char)) (horder : order.Perm (read_words_from_txt lines)) :
    parseJson (batch_fetch_dictionary_multithread fetchers order) =
      some (J.arr (order.map (fun w => J.obj [(w, fetchWordVal (fetchers w) 5)]))) ∧
    (order.map (fun w => J.obj [(w, fetchWordVal (fetchers w) 5)])).length =
      (read_words_from_txt lines).length ∧
    ∀ w ∈ order, fetchWordVal (fetchers w) 5 = J.null ∨
      ∃ n, fetchers w n = .ok (fetchWordVal (fetchers w) 5) := by
  have hmap : order.map (fun w => (fetch_word (fetchers w) w 5 1).ret) =
      order.map (fun w => J.obj [(w, fetchWordVal (fetchers w) 5)]) := by
    apply List.map_congr_left
    intro w _
    exact fetchWordGo_ret (fetchers w) w 1 5 0
  refine ⟨?_, ?_, ?_⟩
  · unfold batch_fetch_dictionary_multithread
    rw [hmap]
    exact appendedFile_parses _
  · rw [List.length_map]
    exact horder.length_eq
  · intro w _
    exact fetchValGo_cases (fetchers w) 5 0

theorem claim_C2_witness :
    parseJson (batch_fetch_dictionary_multithread demoFetchers demoOrder) =
      some (J.arr (demoOrder.map (fun w => J.obj [(w, fetchWordVal (demoFetchers w) 5)]))) ∧
    (demoOrder.map (fun w => J.obj [(w, fetchWordVal (demoFetchers w) 5)])).length =
      (read_words_from_txt demoLines).length ∧
    (∀ w ∈ demoOrder, fetchWordVal (demoFetchers w) 5 = J.null ∨
      ∃ n, demoFetchers w n = .ok (fetchWordVal (demoFetchers w) 5)) :=
  claim_C2 demoLines demoFetchers demoOrder (by decide)

/-- C3: if every call to the underlying fetcher raises an error not
classified as "definition not found", `fetch_word` makes exactly
`max_retries` fetch attempts (default 5, as in the witness) and then
returns the single-key dict `{word: None}` instead of raising. -/
theorem claim_C3 (fetcher : Nat → FetchRes) (word : List Char)
    (max_retries initial_delay : Nat)
    (h : ∀ n, n < max_retries → isTransientErr (fetcher n) = true) :
    (fetch_word fetcher word max_retries initial_delay).calls = max_retries ∧
    (fetch_word fetcher word max_retries initial_delay).ret =
      J.obj [(word, J.null)] := by
  unfold fetch_word
  rw [fetchWordGo_exhaust fetcher word initial_delay max_retries 0
    (fun n _ h2 => h n (by omega))]
  exact ⟨rfl, rfl⟩

theorem claim_C3_witness :
    (fetch_word (fun _ => FetchRes.err ('b' :: 'o' :: 'o' :: 'm' :: [])) ['w'] 5 1).calls = 5 ∧
    (fetch_word (fun _ => FetchRes.err ('b' :: 'o' :: 'o' :: 'm' :: [])) ['w'] 5 1).ret =
      J.obj [(['w'], J.null)] :=
  claim_C3 (fun _ => FetchRes.err ('b' :: 'o' :: 'o' :: 'm' :: [])) ['w'] 5 1 (by decide)

/-- C4: if the first fetcher call raises a failure classified as
"definition not found" (its message contains `'definitions'`, which is the
substring test `fetch_word` applies, and which holds of the absent-content
message `fetch_bing_dictionary` raises at bing.py line 214 for every word),
`fetch_word` returns `{word: None}` immediately: exactly one fetch call, no
retries, no backoff sleep. -/
theorem claim_C4 (fetcher : Nat → FetchRes) (word : List Char)
    (max_retries initial_delay : Nat) (hmr : 0 < max_retries)
    (m : List Char) (h0 : fetcher 0 = FetchRes.err m)
    (hnf : isNotFoundMsg m = true) :
    (fetch_word fetcher word max_retries initial_delay).ret = J.obj [(word, J.null)] ∧
    (fetch_word fetcher word max_retries initial_delay).calls = 1 ∧
    (fetch_word fetcher word max_retries initial_delay).sleeps = [] ∧
    (∀ w, isNotFoundMsg (noDefsMsg w) = true) := by
  obtain ⟨rem, hrem⟩ : ∃ rem, max_retries = rem + 1 := ⟨max_retries - 1, by omega⟩
  subst hrem
  unfold fetch_word
  refine ⟨?_, ?_, ?_, fun w => noDefsMsg_isNotFound w⟩ <;>
    simp [fetchWordGo, h0, hnf]

theorem claim_C4_witness :
    (fetch_word (fun _ => FetchRes.err (noDefsMsg ['x'])) ['x'] 5 1).ret =
      J.obj [(['x'], J.null)] ∧
    (fetch_word (fun _ => FetchRes.err (noDefsMsg ['x'])) ['x'] 5 1).calls = 1 ∧
    (fetch_word (fun _ => FetchRes.err (noDefsMsg ['x'])) ['x'] 5 1).sleeps = [] ∧
    (∀ w, isNotFoundMsg (noDefsMsg w) = true) :=
  claim_C4 (fun _ => FetchRes.err (noDefsMsg ['x'])) ['x'] 5 1 (by omega)
    (noDefsMsg ['x']) rfl (by decide)

/-- C5 counterexample: the claim says backoff delays occur only between
consecutive attempts (so an exhausted run of `calls` attempts would perform
`calls - 1` delays, none after the final attempt).  With an
always-transient fetcher, `max_retries = 2` and `initial_delay = 1`, the
code makes 2 attempts but performs 2 delays `[1, 2]` — the second one after
the final attempt — so the delay count is not `calls - 1`. -/
theorem claim_C5_counterexample :
    (fetch_word (fun _ => FetchRes.err ('b' :: 'o' :: 'o' :: 'm' :: [])) ['w'] 2 1).calls = 2 ∧
    (fetch_word (fun _ => FetchRes.err ('b' :: 'o' :: 'o' :: 'm' :: [])) ['w'] 2 1).sleeps = [1, 2] ∧
    ¬ ((fetch_word (fun _ => FetchRes.err ('b' :: 'o' :: 'o' :: 'm' :: [])) ['w'] 2 1).sleeps.length =
      (fetch_word (fun _ => FetchRes.err ('b' :: 'o' :: 'o' :: 'm' :: [])) ['w'] 2 1).calls - 1) := by
  decide

/-- C5 (amended): the delay performed after the k-th transiently failed
attempt (k counted from 1) is `initial_delay * 2^(k-1)`; a delay follows
every transiently failed attempt — including the final one when retries
exhaust, so an exhausted run performs exactly `max_retries` delays.  In
general every run's delay list is an initial segment of that doubling
sequence. -/
theorem claim_C5_amended (fetcher : Nat → FetchRes) (word : List Char)
    (max_retries initial_delay : Nat)
    (h : ∀ n, n < max_retries → isTransientErr (fetcher n) = true) :
    (fetch_word fetcher word max_retries initial_delay).calls = max_retries ∧
    (fetch_word fetcher word max_retries initial_delay).sleeps =
      (List.range max_retries).map (fun k => initial_delay * 2 ^ k) ∧
    ∀ fetcher' : Nat → FetchRes, ∃ t,
      (fetch_word fetcher' word max_retries initial_delay).sleeps =
        (List.range t).map (fun k => initial_delay * 2 ^ k) := by
  unfold fetch_word
  rw [fetchWordGo_exhaust fetcher word initial_delay max_retries 0
    (fun n _ h2 => h n (by omega))]
  refine ⟨rfl, by simp, ?_⟩
  intro fetcher'
  obtain ⟨t, ht⟩ := fetchWordGo_sleeps_shape fetcher' word initial_delay max_retries 0
  exact ⟨t, by simpa using ht⟩

theorem claim_C5_amended_witness :
    (fetch_word (fun _ => FetchRes.err ('b' :: 'o' :: 'o' :: 'm' :: [])) ['w'] 3 1).calls = 3 ∧
    (fetch_word (fun _ => FetchRes.err ('b' :: 'o' :: 'o' :: 'm' :: [])) ['w'] 3 1).sleeps =
      (List.range 3).map (fun k => 1 * 2 ^ k) ∧
    (∀ fetcher' : Nat → FetchRes, ∃ t,
      (fetch_word fetcher' ['w'] 3 1).sleeps =
        (List.range t).map (fun k => 1 * 2 ^ k)) :=
  claim_C5_amended (fun _ => FetchRes.err ('b' :: 'o' :: 'o' :: 'm' :: [])) ['w'] 3 1
    (by decide)

/-- C6: `read_words_from_txt` returns exactly those stripped input lines
that consist entirely of ASCII letters, in input order (the filter keeps
order); every letters-only token is included and every empty token or token
containing a non-letter character (in particular one starting with a digit)
is excluded. -/
theorem claim_C6 (lines : List (List Char)) :
    read_words_from_txt lines =
      (lines.map pyStrip).filter (fun w => decide (specLetterOnly w)) ∧
    (∀ w ∈ read_words_from_txt lines, specLetterOnly w) ∧
    (∀ w ∈ read_words_from_txt lines, ∀ c rest, w = c :: rest →
      ¬('0' ≤ c ∧ c ≤ '9')) := by
  have hiff : ∀ w : List Char, matchesFullAlpha w = true ↔ specLetterOnly w := by
    intro w
    unfold matchesFullAlpha specLetterOnly
    cases w with
    | nil => simp
    | cons c t =>
      simp only [List.isEmpty_cons, Bool.not_false, Bool.true_and, List.all_eq_true,
        isAsciiLetterB, Bool.or_eq_true, Bool.and_eq_true, decide_eq_true_eq,
        ne_eq, reduceCtorEq, not_false_eq_true, true_and]
  have hpred : ∀ w : List Char, matchesFullAlpha w = decide (specLetterOnly w) := by
    intro w
    cases hD : decide (specLetterOnly w) with
    | true => exact (hiff w).mpr (of_decide_eq_true hD)
    | false =>
      cases hM : matchesFullAlpha w with
      | true => exact absurd ((hiff w).mp hM) (of_decide_eq_false hD)
      | false => rfl
  have heq : read_words_from_txt lines =
      (lines.map pyStrip).filter (fun w => decide (specLetterOnly w)) := by
    unfold read_words_from_txt
    exact List.filter_congr (fun w _ => hpred w)
  refine ⟨heq, ?_, ?_⟩
  · intro w hw
    unfold read_words_from_txt at hw
    exact (hiff w).mp (List.mem_filter.mp hw).2
  · intro w hw c rest hcons hdig
    unfold read_words_from_txt at hw
    have hspec := (hiff w).mp (List.mem_filter.mp hw).2
    have hc := hspec.2 c (by simp [hcons])
    rcases hc with ⟨h1, _⟩ | ⟨h1, _⟩
    · exact absurd (le_trans h1 hdig.2) (by decide)
    · exact absurd (le_trans h1 hdig.2) (by decide)

theorem claim_C6_witness :
    read_words_from_txt demoLines =
      (demoLines.map pyStrip).filter (fun w => decide (specLetterOnly w)) ∧
    read_words_from_txt demoLines = [wClear, wKing] :=
  ⟨(claim_C6 demoLines).1, by decide⟩

/-- C7: if the file I/O inside `append_json_object_to_array` raises at any
point (`failAt`), the `except Exception` handler catches it and the
function returns normally — `append_caught` is always `.ok`; a failure-free
run performs exactly the lock-protected append; and a failure at or before
the first write (opening the file, seeking, or a write that raises before
taking effect) leaves the file unchanged, so the entry is dropped and the
batch continues. -/
theorem claim_C7 (f : List Char) (obj : J) (failAt : Option Nat) :
    (append_caught f obj failAt).isOk = true ∧
    append_caught f obj none = .ok (append_json_object_to_array f obj) ∧
    (∀ k, k ≤ 3 → append_caught f obj (some k) = .ok f) := by
  refine ⟨?_, ?_, ?_⟩
  · unfold append_caught
    cases append_attempt f obj failAt <;> rfl
  · unfold append_caught
    rw [append_attempt_none]
  · intro k hk
    unfold append_caught append_attempt
    interval_cases k <;> by_cases hle : f.length ≤ 2 <;> simp [hle]

theorem claim_C7_witness :
    (append_caught ['[', ']'] J.null (some 0)).isOk = true ∧
    append_caught ['[', ']'] J.null none =
      .ok (append_json_object_to_array ['[', ']'] J.null) ∧
    (∀ k, k ≤ 3 → append_caught ['[', ']'] J.null (some k) = .ok ['[', ']']) :=
  claim_C7 ['[', ']'] J.null (some 0)

/-- C8: initializing the output file writes exactly the two characters
`[]`, which parse as the empty JSON array, regardless of the file's prior
contents — re-running initialization on an existing non-empty file
destructively resets it to `[]`. -/
theorem claim_C8 (prior : List Char) :
    initializeOutputFile prior = ['[', ']'] ∧
    parseJson (initializeOutputFile prior) = some (J.arr []) :=
  ⟨rfl, rfl⟩

/-- C9: with `max_retries = 0` the `while retries < max_retries` loop never
runs: `fetch_word` returns `{word: None}` with zero fetcher calls and zero
backoff sleeps. -/
theorem claim_C9 (fetcher : Nat → FetchRes) (word : List Char) (initial_delay : Nat) :
    fetch_word fetcher word 0 initial_delay =
      ⟨J.obj [(word, J.null)], 0, []⟩ :=
  rfl

/-- C10: in the non-empty case (file size strictly greater than 2 bytes)
the append writes only at or after offset `filesize - 1` (the position of
the existing closing bracket): the result is the old file up to that offset
followed by the written chunk, so every byte before that offset is
unchanged. -/
theorem claim_C10 (f : List Char) (obj : J) (h : 2 < f.length) :
    append_json_object_to_array f obj =
      f.take (f.length - 1) ++ (',' :: '\n' :: (dumpTop obj ++ [']'])) ∧
    (append_json_object_to_array f obj).take (f.length - 1) =
      f.take (f.length - 1) := by
  have h1 : append_json_object_to_array f obj =
      f.take (f.length - 1) ++ (',' :: '\n' :: (dumpTop obj ++ [']'])) := by
    unfold append_json_object_to_array
    rw [if_neg (by omega)]
    exact writeAt_append_over f _ _ (by omega)
      (by simp only [List.length_cons, List.length_append, List.length_nil]; omega)
  refine ⟨h1, ?_⟩
  rw [h1]
  have hlen : (f.take (f.length - 1)).length = f.length - 1 := by
    simp only [List.length_take]
    omega
  rw [List.take_append_eq_append_take]
  rw [show f.length - 1 - (f.take (f.length - 1)).length = 0 from by rw [hlen]; omega]
  simp only [List.take_zero, List.append_nil]
  exact List.take_of_length_le (by rw [hlen])

theorem claim_C10_witness :
    append_json_object_to_array ['[', 'x', ']'] J.null =
      (['[', 'x', ']'] : List Char).take ((['[', 'x', ']'] : List Char).length - 1) ++
        (',' :: '\n' :: (dumpTop J.null ++ [']'])) ∧
    (append_json_object_to_array ['[', 'x', ']'] J.null).take
        ((['[', 'x', ']'] : List Char).length - 1) =
      (['[', 'x', ']'] : List Char).take ((['[', 'x', ']'] : List Char).length - 1) :=
  claim_C10 ['[', 'x', ']'] J.null (by decide)
